import Mathlib

/-!
Verification development for the LFSS (Lightweight File Storage Service)
access-control and namespace-resolution core.

The development shallowly embeds:
* the client-side listing merger `listPath` from `src/frontend/scripts.js`;
* the client response handling of `Connector.listPath` (same file);
* the per-segment path URI codec from `src/frontend/utils.js`;
* the permission evaluator, authentication pipeline and mutation
  coordinator, which are described by the specification and the repository
  documentation but whose server-side implementation is not part of the
  given sources; those parts are modelled from the spec (each such
  definition is marked in its doc comment).

Machine numbers of the JavaScript source are embedded as `Int` (all the
arithmetic involved is exact integer arithmetic), strings as lists of
Unicode code points (`List Nat`).
-/

namespace Lfss

/-! ## Listing merger (src/frontend/scripts.js, function listPath) -/

/-- Embedding of the intermediate `dirOffset = offset` of `listPath`. -/
def dirOffsetJS (offset : Int) : Int := offset

/-- Embedding of `fileOffset = Math.max(offset - dirCount, 0)`. -/
def fileOffsetJS (offset dirCount : Int) : Int := max (offset - dirCount) 0

/-- Embedding of `dirThispage = Math.max(Math.min(dirCount - dirOffset, limit), 0)`. -/
def dirThispageJS (dirCount offset limit : Int) : Int :=
  max (min (dirCount - dirOffsetJS offset) limit) 0

/-- Embedding of `fileLimit = limit - dirThispage`. -/
def fileLimitJS (dirCount offset limit : Int) : Int :=
  limit - dirThispageJS dirCount offset limit

/-- Guard of the directory fetch in `listPath`: `if (offset < dirCount)`. -/
def dirsFetchedJS (dirCount offset : Int) : Bool := offset < dirCount

/-- Guard of the file fetch in `listPath`:
`if (fileLimit >= 0 && fileCount > fileOffset)`. -/
def filesFetchedJS (dirCount fileCount offset limit : Int) : Bool :=
  fileLimitJS dirCount offset limit ≥ 0 && fileCount > fileOffsetJS offset dirCount

/-- Embedding of the non-root branch of `listPath` in
`src/frontend/scripts.js` (lines 878-940).  The two network fetches
`conn.listDirs` and `conn.listFiles` are abstracted as functions from
(offset, limit) to the returned list; the function returns the pair
(dirList, fileList). -/
def listPathJS {α β : Type} (fetchDirs : Int → Int → List α)
    (fetchFiles : Int → Int → List β) (dirCount fileCount offset limit : Int) :
    List α × List β :=
  (if dirsFetchedJS dirCount offset then
      fetchDirs (dirOffsetJS offset) (dirThispageJS dirCount offset limit)
    else [],
   if filesFetchedJS dirCount fileCount offset limit then
      fetchFiles (fileOffsetJS offset dirCount) (fileLimitJS dirCount offset limit)
    else [])

/-- The listing merger exactly as the specification's pseudocode writes it
(section 4.4): `dirTake = clamp(dirCount - dirOffset, 0, limit)`,
`fileTake = limit - dirTake`, directories fetched when `offset < dirCount`,
files fetched when `fileTake > 0 && fileCount > fileOffset`.  This second
definition follows the spec's words and is compared with `listPathJS`,
which is translated from the source. -/
def listPathSpecModel {α β : Type} (fetchDirs : Int → Int → List α)
    (fetchFiles : Int → Int → List β) (dirCount fileCount offset limit : Int) :
    List α × List β :=
  let dirOffset := offset
  let fileOffset := max (offset - dirCount) 0
  let dirTake := max 0 (min (dirCount - dirOffset) limit)
  let fileTake := limit - dirTake
  (if offset < dirCount then fetchDirs dirOffset dirTake else [],
   if fileTake > 0 ∧ fileCount > fileOffset then fetchFiles fileOffset fileTake else [])

/-- A fetch collaborator that returns `min(take, count - offset)` entries,
as the assumption of the pagination test property states. -/
def mkFetch (count : Int) : Int → Int → List Unit :=
  fun off take => List.replicate (min take (count - off)).toNat ()

/-! ## Client response handling of Connector.listPath
(src/frontend/scripts.js lines 641-654) -/

/-- Embedding of the response handling of `Connector.listPath`: on HTTP
status 403 or 401 it throws `Error("Access denied to " + path)`, otherwise
it resolves to the parsed body. -/
def connectorListPathHandle {α : Type} (status : Nat) (path : String) (body : α) :
    Except String α :=
  if status = 403 ∨ status = 401 then
    Except.error ("Access denied to " ++ path)
  else Except.ok body

/-! ## Permission evaluator

The server-side permission evaluator is described by the specification
(section 4.3) and by the repository documents `docs/permission.md` and
`docs/lfssdir.md`, but its implementation is not among the given sources.
The definitions below are therefore modelled from the spec. -/

/-- Per-file permission enum: `unset`, `public`, `protected`, `private`
(numeric codes 0, 1, 2, 3 at the API surface). -/
inductive FilePerm where
  | unset
  | pub
  | prot
  | priv
deriving DecidableEq, Repr

/-- Access level of a peer relation: read or write. -/
inductive PeerLevel where
  | read
  | write
deriving DecidableEq, Repr

/-- Access level in a directory-config access-control map:
read, write or none. -/
inductive ConfigLevel where
  | read
  | write
  | none
deriving DecidableEq, Repr

/-- Modelled from the spec: a user record of the Identity Store (section 3).
Only the fields the permission decision consumes are kept. -/
structure UserRec where
  username : String
  credential : String
  isAdmin : Bool
  permission : FilePerm
  expireTime : Option Nat
deriving DecidableEq, Repr

/-- Modelled from the spec: `isExpired(user, now)` of the Identity Store —
a user with an expire time strictly in the past is expired. -/
def isExpired (u : UserRec) (now : Nat) : Bool :=
  match u.expireTime with
  | Option.some t => decide (t < now)
  | Option.none => false

/-- Modelled from the spec: a resolved resource — the file's immediate
parent directory (as path segments), its path-owner record, the username
of its file-owner (creator), and the file's own permission field. -/
structure Resource where
  parentDir : List String
  pathOwner : UserRec
  fileOwner : String
  filePerm : FilePerm

/-- Modelled from the spec: peer relations (owner, peer, level) and
directory-config access-control maps keyed by directory path. -/
structure Env where
  peers : List (String × String × PeerLevel)
  dirConfigs : List (List String × List (String × ConfigLevel))

/-- Modelled from the spec: `peersOf` lookup — the access level the peer
relation from `owner` grants to `peer`, if any. -/
def peerLevel (env : Env) (owner peer : String) : Option PeerLevel :=
  (env.peers.find? (fun e => e.1 == owner && e.2.1 == peer)).map (fun e => e.2.2)

/-- Modelled from the spec: the directory-config entry for `username` in
the config of directory `dir`, if a config for exactly that directory
exists and lists that username (a config applies only to its own
directory, never recursively). -/
def configEntry (env : Env) (dir : List String) (username : String) :
    Option ConfigLevel :=
  match env.dirConfigs.find? (fun e => e.1 == dir) with
  | Option.none => Option.none
  | Option.some (_, m) => (m.find? (fun e => e.1 == username)).map (fun e => e.2)

/-- The operations of the permission evaluator's contract. -/
inductive Op where
  | get
  | put
  | post
  | deleteFile
  | deleteDir
  | move
  | copy
  | list
deriving DecidableEq, Repr

/-- Outcome of a permission decision. -/
inductive Decision where
  | allow
  | deny
deriving DecidableEq, Repr

/-- Modelled from the spec: operations granted by a peer access level —
read-level peers get GET and LIST only, write-level peers get everything. -/
def peerLevelAllows : PeerLevel → Op → Bool
  | PeerLevel.read, op => op == Op.get || op == Op.list
  | PeerLevel.write, _ => true

/-- Modelled from the spec: operations granted by a directory-config
level; a "none" entry grants nothing (hard deny). -/
def configLevelAllows : ConfigLevel → Op → Bool
  | ConfigLevel.read, op => op == Op.get || op == Op.list
  | ConfigLevel.write, _ => true
  | ConfigLevel.none, _ => false

/-- Modelled from the spec: two-level permission inheritance — the file's
permission if not unset, else the path-owner's permission, else public. -/
def effectivePerm (filePerm ownerPerm : FilePerm) : FilePerm :=
  if filePerm ≠ FilePerm.unset then filePerm
  else if ownerPerm ≠ FilePerm.unset then ownerPerm
  else FilePerm.pub

/-- Modelled from the spec: the anonymous/non-peer fallback tier for GET —
allow iff the effective permission is public, or it is protected and the
actor is an authenticated, non-expired user. -/
def fallbackGet (authenticated : Bool) (eff : FilePerm) : Bool :=
  eff == FilePerm.pub || (eff == FilePerm.prot && authenticated)

/-- Modelled from the spec: the decision algorithm of section 4.3 in
strict precedence order (admin, directory-config override, owner, peer,
anonymous/non-peer fallback), for an actor already normalized per section
4.1 (an expired actor has been mapped to `none`, i.e. nonexistent). -/
def decideRaw (env : Env) (actor : Option UserRec) (r : Resource) (op : Op) :
    Decision :=
  match actor with
  | Option.none =>
      if op == Op.get then
        if fallbackGet false (effectivePerm r.filePerm r.pathOwner.permission) then
          Decision.allow
        else Decision.deny
      else Decision.deny
  | Option.some u =>
      if u.isAdmin then Decision.allow
      else
        match configEntry env r.parentDir u.username with
        | Option.some lvl =>
            if configLevelAllows lvl op then Decision.allow else Decision.deny
        | Option.none =>
            if u.username == r.pathOwner.username || u.username == r.fileOwner then
              Decision.allow
            else
              match peerLevel env r.pathOwner.username u.username with
              | Option.some lvl =>
                  if peerLevelAllows lvl op then Decision.allow else Decision.deny
              | Option.none =>
                  if op == Op.get then
                    if fallbackGet true
                        (effectivePerm r.filePerm r.pathOwner.permission) then
                      Decision.allow
                    else Decision.deny
                  else Decision.deny

/-- Modelled from the spec: an expired virtual user is treated as
nonexistent for all permission purposes from the moment of expiry. -/
def normalizeActor (actor : Option UserRec) (now : Nat) : Option UserRec :=
  match actor with
  | Option.none => Option.none
  | Option.some u => if isExpired u now then Option.none else Option.some u

/-- Modelled from the spec: `decide(actor, resource, operation)` — the
public contract of the permission evaluator. -/
def decide (env : Env) (actor : Option UserRec) (now : Nat) (r : Resource)
    (op : Op) : Decision :=
  decideRaw env (normalizeActor actor now) r op

/-! ## Authentication pipeline and error taxonomy (spec sections 4.1, 7) -/

/-- The two failure kinds of the error taxonomy that the claims compare. -/
inductive ApiError where
  | authenticationFailure
  | permissionDenied
deriving DecidableEq, Repr

/-- Modelled from the spec: `lookupByCredential` of the Identity Store. -/
def lookupByCredential (users : List UserRec) (cred : String) : Option UserRec :=
  users.find? (fun u => u.credential == cred)

/-- Modelled from the spec: the request pipeline — a credential that does
not resolve, or that resolves to an expired user, is an authentication
failure; a resolved, non-expired actor that the evaluator denies is a
permission failure. -/
def handleRequest (users : List UserRec) (env : Env) (cred : Option String)
    (now : Nat) (r : Resource) (op : Op) : Except ApiError Unit :=
  match cred with
  | Option.none =>
      if decide env Option.none now r op == Decision.allow then Except.ok ()
      else Except.error ApiError.permissionDenied
  | Option.some c =>
      match lookupByCredential users c with
      | Option.none => Except.error ApiError.authenticationFailure
      | Option.some u =>
          if isExpired u now then Except.error ApiError.authenticationFailure
          else if decide env (Option.some u) now r op == Decision.allow then
            Except.ok ()
          else Except.error ApiError.permissionDenied

/-! ## Mutation coordinator (spec section 4.5)

The server-side mutation coordinator is likewise not among the given
sources; it is modelled from the spec.  Each operation is one transaction:
it either returns the committed state or an error, in which case the
caller keeps the unchanged state (rollback). -/

/-- Modelled from the spec: a stored file row (fmeta) — url as path
segments (the first segment is the path-owner's username), the file-owner
(creator) username, size in bytes, the permission field, and an abstract
byte-content identity. -/
structure FileRec where
  url : List String
  fileOwner : String
  size : Nat
  perm : FilePerm
  content : Nat
deriving DecidableEq, Repr

/-- Modelled from the spec: the path-owner of a record, derived from the
first segment of its url. -/
def pOwner (f : FileRec) : String := f.url.headD ""

/-- Modelled from the spec: the transactional store state — existing
usernames, file rows, the per-user accounted size (usize), and the
per-user quota (max_storage). -/
structure Store where
  users : List String
  files : List FileRec
  usize : String → Nat
  maxStorage : String → Nat

/-- Look up the row with the given url (urls are unique by constraint). -/
def lookupFile (s : Store) (url : List String) : Option FileRec :=
  s.files.find? (fun f => f.url == url)

/-- Remove the (first) row with the given url. -/
def removeFile : List FileRec → List String → List FileRec
  | [], _ => []
  | f :: fs, url => if f.url == url then fs else f :: removeFile fs url

/-- Point update of the accounted-size map. -/
def updUsize (g : String → Nat) (u : String) (n : Nat) : String → Nat :=
  fun v => if v = u then n else g v

/-- Credit `n` bytes to user `u`. -/
def credit (g : String → Nat) (u : String) (n : Nat) : String → Nat :=
  updUsize g u (g u + n)

/-- Debit `n` bytes from user `u`. -/
def debit (g : String → Nat) (u : String) (n : Nat) : String → Nat :=
  updUsize g u (g u - n)

/-- Conflict policy of create/overwrite. -/
inductive ConflictPolicy where
  | abort
  | overwrite
  | skip
deriving DecidableEq, Repr

/-- Errors of the mutation coordinator. -/
inductive MutErr where
  | conflict
  | quotaExceeded
  | notFound
deriving DecidableEq, Repr

/-- Sum of the sizes of the rows whose file-owner is `u`. -/
def sumOwned (files : List FileRec) (u : String) : Nat :=
  ((files.filter (fun f => f.fileOwner == u)).map (fun f => f.size)).sum

/-- The accounted-size invariant of the spec's data model: every user's
usize equals the sum of the sizes of the files whose file-owner is that
user. -/
def SizeInv (s : Store) : Prop := ∀ u, s.usize u = sumOwned s.files u

/-- Modelled from the spec: create/overwrite (PUT) with a conflict policy;
the quota check is evaluated against the post-write total of the
file-owner, atomically with the size-accounting update. -/
def putFile (s : Store) (actor : String) (url : List String) (size : Nat)
    (perm : FilePerm) (content : Nat) (policy : ConflictPolicy) :
    Except MutErr Store :=
  match lookupFile s url with
  | Option.some old =>
      match policy with
      | ConflictPolicy.abort => Except.error MutErr.conflict
      | ConflictPolicy.skip => Except.ok s
      | ConflictPolicy.overwrite =>
          let usz := credit (debit s.usize old.fileOwner old.size) actor size
          if usz actor ≤ s.maxStorage actor then
            Except.ok { s with
              files := { url := url, fileOwner := actor, size := size,
                         perm := perm, content := content } ::
                removeFile s.files url,
              usize := usz }
          else Except.error MutErr.quotaExceeded
  | Option.none =>
      let usz := credit s.usize actor size
      if usz actor ≤ s.maxStorage actor then
        Except.ok { s with
          files := { url := url, fileOwner := actor, size := size,
                     perm := perm, content := content } :: s.files,
          usize := usz }
      else Except.error MutErr.quotaExceeded

/-- Modelled from the spec: delete — removes the row and decrements the
file-owner's accounted size in the same transaction. -/
def delFile (s : Store) (url : List String) : Except MutErr Store :=
  match lookupFile s url with
  | Option.none => Except.error MutErr.notFound
  | Option.some f =>
      Except.ok { s with files := removeFile s.files url,
                         usize := debit s.usize f.fileOwner f.size }

/-- Modelled from the spec: move — reassigns ownership to the destination
path-owner, updates both owners' accounted sizes and the url, all
atomically; when any step fails (missing source, occupied destination, or
the destination owner exceeding quota) the transaction yields an error and
no state change. -/
def moveFile (s : Store) (src dst : List String) : Except MutErr Store :=
  match lookupFile s src with
  | Option.none => Except.error MutErr.notFound
  | Option.some f =>
      match dst.head? with
      | Option.none => Except.error MutErr.notFound
      | Option.some newOwner =>
          match lookupFile s dst with
          | Option.some _ => Except.error MutErr.conflict
          | Option.none =>
              let usz := credit (debit s.usize f.fileOwner f.size) newOwner f.size
              if usz newOwner ≤ s.maxStorage newOwner then
                Except.ok { s with
                  files := { f with url := dst, fileOwner := newOwner } ::
                    removeFile s.files src,
                  usize := usz }
              else Except.error MutErr.quotaExceeded

/-- Modelled from the spec: copy — inserts a new row whose file-owner is
the acting user, credits the acting user's quota with the copied size,
debits nothing from the source, and shares the source's bytes. -/
def copyFile (s : Store) (actor : String) (src dst : List String) :
    Except MutErr Store :=
  match lookupFile s src with
  | Option.none => Except.error MutErr.notFound
  | Option.some f =>
      match lookupFile s dst with
      | Option.some _ => Except.error MutErr.conflict
      | Option.none =>
          let usz := credit s.usize actor f.size
          if usz actor ≤ s.maxStorage actor then
            Except.ok { s with
              files := { url := dst, fileOwner := actor, size := f.size,
                         perm := f.perm, content := f.content } :: s.files,
              usize := usz }
          else Except.error MutErr.quotaExceeded

/-- Overwrite the permission field of the row at `url` (used to state that
the copy operation is insensitive to the source's permission). -/
def setPerm (s : Store) (url : List String) (p : FilePerm) : Store :=
  { s with files := s.files.map (fun g =>
      if g.url == url then { g with perm := p } else g) }

/-- Modelled from the spec: user deletion — one transaction that removes
the user row, removes every record whose path-owner is that user,
transfers the file-owner of records the user created under other users'
paths to those paths' owners and adjusts quotas accordingly; if a
receiving owner would exceed quota the whole deletion is aborted. -/
def deleteUserOp (s : Store) (u : String) : Except MutErr Store :=
  let removed := s.files.filter (fun f => pOwner f == u)
  let kept := s.files.filter (fun f => !(pOwner f == u))
  let files' := kept.map (fun f =>
    if f.fileOwner == u then { f with fileOwner := pOwner f } else f)
  let usz : String → Nat := fun v =>
    if v = u then 0
    else s.usize v - sumOwned removed v
      + ((kept.filter (fun f => f.fileOwner == u && pOwner f == v)).map
          (fun f => f.size)).sum
  if kept.all (fun f => !(f.fileOwner == u) ||
      usz (pOwner f) ≤ s.maxStorage (pOwner f)) then
    Except.ok { users := s.users.filter (fun v => !(v == u)),
                files := files', usize := usz, maxStorage := s.maxStorage }
  else Except.error MutErr.quotaExceeded

/-- The committed mutations of the coordinator. -/
inductive MutOp where
  | put (actor : String) (url : List String) (size : Nat) (perm : FilePerm)
      (content : Nat) (policy : ConflictPolicy)
  | del (url : List String)
  | move (src dst : List String)
  | copy (actor : String) (src dst : List String)
  | delUser (u : String)

/-- Modelled from the spec: commit-or-rollback execution — the state after
the operation when it commits, the unchanged state when it fails. -/
def applyOp (s : Store) : MutOp → Store
  | MutOp.put a url sz p c pol =>
      match putFile s a url sz p c pol with
      | Except.ok s' => s'
      | Except.error _ => s
  | MutOp.del url =>
      match delFile s url with
      | Except.ok s' => s'
      | Except.error _ => s
  | MutOp.move src dst =>
      match moveFile s src dst with
      | Except.ok s' => s'
      | Except.error _ => s
  | MutOp.copy a src dst =>
      match copyFile s a src dst with
      | Except.ok s' => s'
      | Except.error _ => s
  | MutOp.delUser u =>
      match deleteUserOp s u with
      | Except.ok s' => s'
      | Except.error _ => s

/-! ## Concrete fixtures used by witness theorems -/

/-- A concrete path-owner used by witnesses. -/
def aliceW : UserRec :=
  { username := "alice", credential := "ca", isAdmin := false
    permission := FilePerm.unset, expireTime := Option.none }

/-- A concrete non-owner user used by witnesses. -/
def eveW : UserRec :=
  { username := "eve", credential := "ce", isAdmin := false
    permission := FilePerm.unset, expireTime := Option.none }

/-- A concrete expired virtual user used by witnesses. -/
def vUserW : UserRec :=
  { username := ".v-tmp-1", credential := "cv", isAdmin := false
    permission := FilePerm.unset, expireTime := Option.some 5 }

/-- A concrete environment: eve and the virtual user are write-peers of
alice, and the config of directory alice/docs lists eve as none. -/
def envW : Env :=
  { peers := [("alice", "eve", PeerLevel.write), ("alice", ".v-tmp-1", PeerLevel.write)]
    dirConfigs := [(["alice", "docs"], [("eve", ConfigLevel.none)])] }

/-- A concrete file directly inside alice/docs, created by alice, with
permission unset. -/
def fileDirectW : Resource :=
  { parentDir := ["alice", "docs"], pathOwner := aliceW
    fileOwner := "alice", filePerm := FilePerm.unset }

/-- A concrete file in the subdirectory alice/docs/sub. -/
def fileSubW : Resource :=
  { parentDir := ["alice", "docs", "sub"], pathOwner := aliceW
    fileOwner := "alice", filePerm := FilePerm.unset }

/-- Move fixture: alice's file of size 10; bob is at 99 of 100 bytes, so
the move would push bob over quota. -/
def sMoveW : Store :=
  { users := ["alice", "bob"]
    files := [{ url := ["alice", "f"], fileOwner := "alice", size := 10,
                perm := FilePerm.unset, content := 0 }]
    usize := fun v => if v = "alice" then 10 else if v = "bob" then 99 else 0
    maxStorage := fun _ => 100 }

/-- Copy fixture for the counterexample: the file at alice/a was created
by eve (its file-owner), who copies it to another url inside alice's
namespace. -/
def sCopyCrossW : Store :=
  { users := ["alice", "eve"]
    files := [{ url := ["alice", "a"], fileOwner := "eve", size := 10,
                perm := FilePerm.unset, content := 7 }]
    usize := fun v => if v = "eve" then 10 else 0
    maxStorage := fun _ => 100 }

/-- The source record of the cross-user copy fixture: alice's private
file. -/
def fCopyW : FileRec :=
  { url := ["alice", "a"], fileOwner := "alice", size := 10,
    perm := FilePerm.priv, content := 7 }

/-- Copy fixture for the amended claim: bob copies alice's private file
into his own namespace. -/
def sCopyW : Store :=
  { users := ["alice", "bob"]
    files := [fCopyW]
    usize := fun v => if v = "alice" then 10 else 0
    maxStorage := fun _ => 100 }

/-- The empty store, which satisfies the accounted-size invariant. -/
def emptyStoreW : Store :=
  { users := [], files := [], usize := fun _ => 0, maxStorage := fun _ => 100 }

/-! ## Path URI codec (src/frontend/utils.js lines 43-53)

`encodePathURI(path)` is `path.split('/').map(encodeURIComponent).join('/')`
and `decodePathURI(path)` is the same with `decodeURIComponent`.  A JS
string is modelled as a list of Unicode code points; the built-in
`encodeURIComponent` / `decodeURIComponent` pair is embedded following the
ECMAScript specification (UTF-8 percent-encoding with the unreserved set
of `encodeURIComponent`, and the strict UTF-8 table for decoding, with a
thrown URIError modelled as `Option.none`). -/

/-- A Unicode scalar value: a code point that is not a lone surrogate. -/
def ValidScalar (c : Nat) : Prop := c < 1114112 ∧ ¬(55296 ≤ c ∧ c ≤ 57343)

instance (c : Nat) : Decidable (ValidScalar c) :=
  inferInstanceAs (Decidable (c < 1114112 ∧ ¬(55296 ≤ c ∧ c ≤ 57343)))

/-- Split on the slash (code point 47), as `path.split('/')` does; the JS
split of the empty string is one empty segment, never the empty array. -/
def splitOnSlash : List Nat → List (List Nat)
  | [] => [[]]
  | c :: cs =>
      let r := splitOnSlash cs
      if c = 47 then [] :: r
      else
        match r with
        | [] => [[c]]
        | s :: ss => (c :: s) :: ss

/-- Join with the slash, as `segments.join('/')` does. -/
def joinSlash : List (List Nat) → List Nat
  | [] => []
  | [s] => s
  | s :: ss => s ++ 47 :: joinSlash ss

/-- The characters `encodeURIComponent` leaves unescaped: the letters,
the digits, and minus, underscore, dot, bang, tilde, star, the single
quote and the two parentheses. -/
def isUnreservedURI (c : Nat) : Bool :=
  (65 ≤ c && c ≤ 90) || (97 ≤ c && c ≤ 122) || (48 ≤ c && c ≤ 57) ||
  c == 45 || c == 95 || c == 46 || c == 33 || c == 126 || c == 42 ||
  c == 39 || c == 40 || c == 41

/-- UTF-8 byte sequence of a code point. -/
def utf8Bytes (c : Nat) : List Nat :=
  if c < 128 then [c]
  else if c < 2048 then [192 + c / 64, 128 + c % 64]
  else if c < 65536 then [224 + c / 4096, 128 + c / 64 % 64, 128 + c % 64]
  else [240 + c / 262144, 128 + c / 4096 % 64, 128 + c / 64 % 64,
        128 + c % 64]

/-- Uppercase hexadecimal digit character of a nibble. -/
def hexDigitChar (n : Nat) : Nat := if n < 10 then 48 + n else 55 + n

/-- Percent escape of one byte: the percent sign then two hex digits. -/
def escapeByte (b : Nat) : List Nat :=
  [37, hexDigitChar (b / 16), hexDigitChar (b % 16)]

/-- Percent escapes of a byte sequence. -/
def escBytes : List Nat → List Nat
  | [] => []
  | b :: bs => escapeByte b ++ escBytes bs

/-- Model of `encodeURIComponent` on one character: kept when unreserved,
otherwise
the percent escapes of its UTF-8 bytes. -/
def encChar (c : Nat) : List Nat :=
  if isUnreservedURI c then [c] else escBytes (utf8Bytes c)

/-- Model of `encodeURIComponent` on a segment. -/
def encSeg : List Nat → List Nat
  | [] => []
  | c :: cs => encChar c ++ encSeg cs

/-- Numeric value of a hexadecimal digit character (both cases). -/
def hexVal (c : Nat) : Option Nat :=
  if 48 ≤ c ∧ c ≤ 57 then Option.some (c - 48)
  else if 65 ≤ c ∧ c ≤ 70 then Option.some (c - 55)
  else if 97 ≤ c ∧ c ≤ 102 then Option.some (c - 87)
  else Option.none

/-- Parse one percent escape at the head of the input: a percent sign and
two hex digits give a byte and the remaining input. -/
def parseEsc : List Nat → Option (Nat × List Nat)
  | c :: h :: l :: rest =>
      if c = 37 then
        match hexVal h, hexVal l with
        | Option.some hv, Option.some lv => Option.some (16 * hv + lv, rest)
        | _, _ => Option.none
      else Option.none
  | _ => Option.none

/-- Parse one complete percent-encoded UTF-8 byte sequence (one to four
escaped bytes, the continuation bytes checked against the strict UTF-8
table of the ECMAScript Decode algorithm), yielding the decoded code point
and the remaining input. -/
def decodeUtf8Escape (l : List Nat) : Option (Nat × List Nat) :=
  match parseEsc l with
  | Option.none => Option.none
  | Option.some (b, r1) =>
      if b < 128 then Option.some (b, r1)
      else if 194 ≤ b ∧ b ≤ 223 then
        match parseEsc r1 with
        | Option.some (b2, r2) =>
            if 128 ≤ b2 ∧ b2 ≤ 191 then
              Option.some ((b - 192) * 64 + (b2 - 128), r2)
            else Option.none
        | Option.none => Option.none
      else if 224 ≤ b ∧ b ≤ 239 then
        match parseEsc r1 with
        | Option.some (b2, r2) =>
            match parseEsc r2 with
            | Option.some (b3, r3) =>
                if ((b = 224 ∧ 160 ≤ b2 ∧ b2 ≤ 191) ∨
                    (225 ≤ b ∧ b ≤ 236 ∧ 128 ≤ b2 ∧ b2 ≤ 191) ∨
                    (b = 237 ∧ 128 ≤ b2 ∧ b2 ≤ 159) ∨
                    (238 ≤ b ∧ b ≤ 239 ∧ 128 ≤ b2 ∧ b2 ≤ 191)) ∧
                   128 ≤ b3 ∧ b3 ≤ 191 then
                  Option.some ((b - 224) * 4096 + (b2 - 128) * 64 + (b3 - 128),
                    r3)
                else Option.none
            | Option.none => Option.none
        | Option.none => Option.none
      else if 240 ≤ b ∧ b ≤ 244 then
        match parseEsc r1 with
        | Option.some (b2, r2) =>
            match parseEsc r2 with
            | Option.some (b3, r3) =>
                match parseEsc r3 with
                | Option.some (b4, r4) =>
                    if ((b = 240 ∧ 144 ≤ b2 ∧ b2 ≤ 191) ∨
                        (241 ≤ b ∧ b ≤ 243 ∧ 128 ≤ b2 ∧ b2 ≤ 191) ∨
                        (b = 244 ∧ 128 ≤ b2 ∧ b2 ≤ 143)) ∧
                       (128 ≤ b3 ∧ b3 ≤ 191) ∧ (128 ≤ b4 ∧ b4 ≤ 191) then
                      Option.some ((b - 240) * 262144 + (b2 - 128) * 4096 +
                        (b3 - 128) * 64 + (b4 - 128), r4)
                    else Option.none
                | Option.none => Option.none
            | Option.none => Option.none
        | Option.none => Option.none
      else Option.none

/-- Model of `decodeURIComponent` on a segment, with explicit fuel:
characters
other than the percent sign pass through; a percent sign starts one
complete percent-encoded UTF-8 byte sequence, which decodes to one code
point; malformed input is an error (`Option.none`).  Every step consumes
at least one input character, so fuel equal to the input length is always
enough. -/
def decSegF : Nat → List Nat → Option (List Nat)
  | _, [] => Option.some []
  | 0, _ :: _ => Option.none
  | fuel + 1, c :: rest =>
      if c = 37 then
        match decodeUtf8Escape (c :: rest) with
        | Option.some (cp, r) => (decSegF fuel r).map (fun t => cp :: t)
        | Option.none => Option.none
      else (decSegF fuel rest).map (fun t => c :: t)

/-- Model of `decodeURIComponent` on a segment. -/
def decSeg (l : List Nat) : Option (List Nat) := decSegF l.length l

/-- Model of `decodeURIComponent` over a list of segments; any failing
segment
fails the whole path. -/
def decSegs : List (List Nat) → Option (List (List Nat))
  | [] => Option.some []
  | s :: ss =>
      match decSeg s, decSegs ss with
      | Option.some d, Option.some ds => Option.some (d :: ds)
      | _, _ => Option.none

/-- Embedding of `encodePathURI` from utils.js: split on the slash,
encode each segment, join with the slash. -/
def encodePathURI (p : List Nat) : List Nat :=
  joinSlash ((splitOnSlash p).map encSeg)

/-- Embedding of `decodePathURI` from utils.js: split on the slash, decode
each segment, join with the slash (a URIError is `Option.none`). -/
def decodePathURI (p : List Nat) : Option (List Nat) :=
  (decSegs (splitOnSlash p)).map joinSlash

/-- Embedding of `ensurePathURI` from utils.js:
`encodePathURI(decodePathURI(path))`. -/
def ensurePathURI (p : List Nat) : Option (List Nat) :=
  (decodePathURI p).map encodePathURI

/-- Claim C2: for the listing merger with dirCount = 3, fileCount = 10 and
limit = 5, assuming the underlying fetches return min(take, count - offset)
entries: offset 0 yields exactly 3 directories and 2 files; offset 3 yields
0 directories and 5 files; offset 12 yields 0 directories and 1 file; and
offset 13 yields empty directory and file arrays and no error. -/
theorem claim2_pagination_cases :
    (listPathJS (mkFetch 3) (mkFetch 10) 3 10 0 5).1.length = 3 ∧
    (listPathJS (mkFetch 3) (mkFetch 10) 3 10 0 5).2.length = 2 ∧
    (listPathJS (mkFetch 3) (mkFetch 10) 3 10 3 5).1.length = 0 ∧
    (listPathJS (mkFetch 3) (mkFetch 10) 3 10 3 5).2.length = 5 ∧
    (listPathJS (mkFetch 3) (mkFetch 10) 3 10 12 5).1.length = 0 ∧
    (listPathJS (mkFetch 3) (mkFetch 10) 3 10 12 5).2.length = 1 ∧
    listPathJS (mkFetch 3) (mkFetch 10) 3 10 13 5 = ([], []) := by
  decide

/-- Claim C3, counterexample: at dirCount = 3, fileCount = 10, offset = 0,
limit = 3 the implementation's file-fetch guard is true although the spec's
fileTake equals 0, so a file fetch does occur with fileTake = 0, and the
merger differs from the spec's pseudocode for a fetch collaborator that
returns a non-empty list on a zero take. -/
theorem claim3_counterexample :
    filesFetchedJS 3 10 0 3 = true ∧ fileLimitJS 3 0 3 = 0 ∧
    listPathJS (fun _ _ => ([] : List Unit)) (fun _ _ => [()]) 3 10 0 3 ≠
      listPathSpecModel (fun _ _ => ([] : List Unit)) (fun _ _ => [()]) 3 10 0 3 := by
  decide

/-- Claim C3 as amended: for all non-negative inputs the implemented merger
computes the offsets and takes of the spec's pseudocode, fetches
directories exactly when offset < dirCount, and fetches files when
fileLimit ≥ 0 (which always holds) and fileCount > fileOffset — so, unlike
the pseudocode, a zero-length file fetch occurs when fileTake = 0 and
fileCount > fileOffset; whenever the file fetch returns the empty list on a
zero take, the produced page equals the spec pseudocode's page. -/
theorem claim3_merger_refines_spec {α β : Type} (d f o l : Nat)
    (fetchDirs : Int → Int → List α) (fetchFiles : Int → Int → List β) :
    (dirsFetchedJS d o = true ↔ (o : Int) < d) ∧
    0 ≤ fileLimitJS d o l ∧
    (filesFetchedJS d f o l = true ↔ fileOffsetJS o d < f) ∧
    ((∀ off, fetchFiles off 0 = []) →
      listPathJS fetchDirs fetchFiles d f o l =
        listPathSpecModel fetchDirs fetchFiles d f o l) := by
  have hl : (0 : Int) ≤ l := Int.natCast_nonneg l
  have htake : dirThispageJS d o l ≤ l :=
    max_le (min_le_right _ _) hl
  have hfl : 0 ≤ fileLimitJS d o l := by
    simp only [fileLimitJS]
    omega
  refine ⟨by simp [dirsFetchedJS], hfl, ?_, ?_⟩
  · simp only [filesFetchedJS, Bool.and_eq_true, decide_eq_true_eq, ge_iff_le]
    constructor
    · rintro ⟨-, h⟩; exact h
    · intro h; exact ⟨hfl, h⟩
  · intro hzero
    have hmax : ∀ x : Int, (0 : Int) ⊔ x = x ⊔ 0 := fun x => max_comm 0 x
    simp only [listPathJS, listPathSpecModel, dirsFetchedJS, filesFetchedJS,
      dirOffsetJS, fileOffsetJS, dirThispageJS, fileLimitJS,
      Bool.and_eq_true, decide_eq_true_eq, ge_iff_le, gt_iff_lt, hmax]
    set t : Int := ((d : Int) - (o : Int)) ⊓ (l : Int) ⊔ 0 with ht
    set fo : Int := ((o : Int) - (d : Int)) ⊔ 0 with hfo
    have hfl' : (0 : Int) ≤ (l : Int) - t :=
      sub_nonneg.mpr (max_le (min_le_right _ _) hl)
    refine Prod.ext rfl ?_
    rcases hfl'.lt_or_eq with hpos | heq0
    · have hiff : ((0 : Int) ≤ (l : Int) - t ∧ fo < (f : Int)) ↔
          ((0 : Int) < (l : Int) - t ∧ fo < (f : Int)) :=
        ⟨fun h => ⟨hpos, h.2⟩, fun h => ⟨le_of_lt h.1, h.2⟩⟩
      rw [if_congr hiff rfl rfl]
    · rw [← heq0]
      simp only [lt_irrefl, false_and, if_false, le_refl, true_and]
      split_ifs with h1
      · exact hzero _
      · rfl

/-- Witness for the amended claim C3 at dirCount = 3, fileCount = 10,
offset = 0, limit = 3 with a file fetch that returns the empty list on a
zero take: the implemented merger page equals the spec pseudocode's page. -/
theorem claim3_merger_refines_spec_witness :
    listPathJS (fun _ _ => ([] : List Unit))
        (fun _ take => List.replicate take.toNat ()) 3 10 0 3 =
      listPathSpecModel (fun _ _ => ([] : List Unit))
        (fun _ take => List.replicate take.toNat ()) 3 10 0 3 :=
  (claim3_merger_refines_spec 3 10 0 3 _ _).2.2.2 (fun _ => rfl)

/-- Claim C8, counterexample: the client `Connector.listPath` raises the
identical error for HTTP status 401 (authentication failure) and status
403 (permission denied), so a listPath caller cannot distinguish the two
outcomes. -/
theorem claim8_counterexample :
    connectorListPathHandle 401 "alice/" (0 : Nat) =
        Except.error "Access denied to alice/" ∧
    connectorListPathHandle 403 "alice/" (0 : Nat) =
        Except.error "Access denied to alice/" :=
  ⟨rfl, rfl⟩

/-- Claim C8 as amended: the server reports authentication failure and
permission denial with distinct HTTP statuses (401 versus 403), but the
client `Connector.listPath` maps both statuses to one identical thrown
error, so at the listPath client interface the two outcomes are not
distinguishable. -/
theorem claim8_listpath_collapses_statuses {α : Type} (path : String) (body : α) :
    connectorListPathHandle 401 path body = connectorListPathHandle 403 path body ∧
    connectorListPathHandle 401 path body =
      Except.error ("Access denied to " ++ path) := by
  constructor <;> simp [connectorListPathHandle]

/-- Claim C1: for every file and every actor reaching the
anonymous/non-peer fallback tier (not admin, no directory-config entry,
not path-owner or file-owner, no peer relation), the effective permission
is the file's permission if not unset, else the path-owner's permission,
else public; GET is allowed iff the effective permission is public, or it
is protected and the actor is an authenticated, non-expired user; GET is
denied when it is private, or when it is protected and there is no actor. -/
theorem claim1_fallback_get (env : Env) (actor : Option UserRec) (now : Nat)
    (r : Resource)
    (hA : ∀ u, actor = Option.some u → isExpired u now = false →
      u.isAdmin = false ∧
      configEntry env r.parentDir u.username = Option.none ∧
      u.username ≠ r.pathOwner.username ∧
      u.username ≠ r.fileOwner ∧
      peerLevel env r.pathOwner.username u.username = Option.none) :
    (r.filePerm ≠ FilePerm.unset →
      effectivePerm r.filePerm r.pathOwner.permission = r.filePerm) ∧
    (r.filePerm = FilePerm.unset → r.pathOwner.permission ≠ FilePerm.unset →
      effectivePerm r.filePerm r.pathOwner.permission = r.pathOwner.permission) ∧
    (r.filePerm = FilePerm.unset → r.pathOwner.permission = FilePerm.unset →
      effectivePerm r.filePerm r.pathOwner.permission = FilePerm.pub) ∧
    (decide env actor now r Op.get = Decision.allow ↔
      (effectivePerm r.filePerm r.pathOwner.permission = FilePerm.pub ∨
        (effectivePerm r.filePerm r.pathOwner.permission = FilePerm.prot ∧
          ∃ u, actor = Option.some u ∧ isExpired u now = false))) ∧
    (effectivePerm r.filePerm r.pathOwner.permission = FilePerm.priv →
      decide env actor now r Op.get = Decision.deny) ∧
    (effectivePerm r.filePerm r.pathOwner.permission = FilePerm.prot →
      actor = Option.none → decide env actor now r Op.get = Decision.deny) := by
  have hiff : decide env actor now r Op.get = Decision.allow ↔
      (effectivePerm r.filePerm r.pathOwner.permission = FilePerm.pub ∨
        (effectivePerm r.filePerm r.pathOwner.permission = FilePerm.prot ∧
          ∃ u, actor = Option.some u ∧ isExpired u now = false)) := by
    cases actor with
    | none =>
        simp only [decide, normalizeActor, decideRaw, fallbackGet]
        cases heff : effectivePerm r.filePerm r.pathOwner.permission <;> simp
    | some u =>
        cases hexp : isExpired u now with
        | true =>
            simp only [decide, normalizeActor, hexp, if_true, decideRaw, fallbackGet]
            cases heff : effectivePerm r.filePerm r.pathOwner.permission <;>
              simp [hexp]
        | false =>
            obtain ⟨h1, h2, h3, h4, h5⟩ := hA u rfl hexp
            simp only [decide, normalizeActor, hexp, Bool.false_eq_true,
              if_false, decideRaw, h1, h2, h5, fallbackGet]
            rw [show (u.username == r.pathOwner.username) = false by
                  simp [beq_eq_false_iff_ne, h3],
                show (u.username == r.fileOwner) = false by
                  simp [beq_eq_false_iff_ne, h4]]
            cases heff : effectivePerm r.filePerm r.pathOwner.permission <;>
              simp [hexp]
  refine ⟨?_, ?_, ?_, hiff, ?_, ?_⟩
  · intro h; simp [effectivePerm, h]
  · intro h h'; simp [effectivePerm, h, h']
  · intro h h'; simp [effectivePerm, h, h']
  · intro hp
    cases hdec : decide env actor now r Op.get with
    | allow =>
        exfalso
        rcases hiff.mp hdec with h | ⟨h, -⟩ <;> rw [hp] at h <;> simp at h
    | deny => rfl
  · intro hp hnone
    subst hnone
    simp [decide, normalizeActor, decideRaw, fallbackGet, hp]

/-- Witness for claim C1: in the concrete fixture, anonymous GET of a file
with permission unset whose path-owner also has permission unset (so the
effective permission is public) is allowed. -/
theorem claim1_fallback_get_witness :
    decide envW Option.none 0 fileSubW Op.get = Decision.allow :=
  ((claim1_fallback_get envW Option.none 0 fileSubW
      (fun u h => by cases h)).2.2.2.1).mpr (Or.inl rfl)

/-- Claim C4: a directory-config entry for an actor replaces any
peer-derived level for files directly inside that directory (whatever the
peer relation says), a "none" entry is a hard deny there even for a
write-peer of the path-owner, and the config has no effect on files in a
subdirectory, where the write-peer relation again governs. -/
theorem claim4_dirconfig_override (env : Env) (u : UserRec) (now : Nat)
    (r1 r2 : Resource) (sub : String) (lvl : ConfigLevel) (op : Op)
    (hexp : isExpired u now = false)
    (hadm : u.isAdmin = false)
    (hcfg : configEntry env r1.parentDir u.username = Option.some lvl)
    (hsub : r2.parentDir = r1.parentDir ++ [sub])
    (hcfg2 : configEntry env r2.parentDir u.username = Option.none)
    (hown2 : u.username ≠ r2.pathOwner.username ∧ u.username ≠ r2.fileOwner)
    (hpeer2 : peerLevel env r2.pathOwner.username u.username =
      Option.some PeerLevel.write) :
    (decide env (Option.some u) now r1 op =
      if configLevelAllows lvl op then Decision.allow else Decision.deny) ∧
    (lvl = ConfigLevel.none → decide env (Option.some u) now r1 op = Decision.deny) ∧
    decide env (Option.some u) now r2 op = Decision.allow := by
  have ha : decide env (Option.some u) now r1 op =
      if configLevelAllows lvl op then Decision.allow else Decision.deny := by
    simp [decide, normalizeActor, hexp, decideRaw, hadm, hcfg]
  refine ⟨ha, ?_, ?_⟩
  · intro h
    rw [ha, h]
    simp [configLevelAllows]
  · simp [decide, normalizeActor, hexp, decideRaw, hadm, hcfg2,
      beq_eq_false_iff_ne, hown2.1, hown2.2, hpeer2, peerLevelAllows]

/-- Witness for claim C4: in the concrete fixture, eve — a write-peer of
alice listed as "none" in the config of alice/docs — is denied PUT on a
file directly in alice/docs but allowed PUT on a file in alice/docs/sub. -/
theorem claim4_dirconfig_override_witness :
    decide envW (Option.some eveW) 0 fileDirectW Op.put = Decision.deny ∧
    decide envW (Option.some eveW) 0 fileSubW Op.put = Decision.allow := by
  have h := claim4_dirconfig_override envW eveW 0 fileDirectW fileSubW "sub"
    ConfigLevel.none Op.put rfl rfl rfl rfl rfl ⟨by decide, by decide⟩ rfl
  exact ⟨h.2.1 rfl, h.2.2⟩

/-- Claim C7: every operation that an expired virtual user issues after
its expire time — with any credential that resolves to that user — returns
AuthenticationFailure, not PermissionDenied, even on paths the user could
previously access through a write-peer relation. -/
theorem claim7_expired_user_authentication_failure (users : List UserRec)
    (env : Env) (u : UserRec) (cred : String) (now te : Nat) (r : Resource)
    (op : Op)
    (hcred : lookupByCredential users cred = Option.some u)
    (hte : u.expireTime = Option.some te)
    (hnow : te < now)
    (hpeer : peerLevel env r.pathOwner.username u.username =
      Option.some PeerLevel.write) :
    handleRequest users env (Option.some cred) now r op =
      Except.error ApiError.authenticationFailure ∧
    handleRequest users env (Option.some cred) now r op ≠
      Except.error ApiError.permissionDenied := by
  have hexp : isExpired u now = true := by simp [isExpired, hte, hnow]
  constructor
  · simp [handleRequest, hcred, hexp]
  · simp [handleRequest, hcred, hexp]

/-- Witness for claim C7: the concrete virtual user (write-peer of alice,
expire time 5) issuing a PUT at time 10 gets AuthenticationFailure. -/
theorem claim7_expired_user_authentication_failure_witness :
    handleRequest [vUserW] envW (Option.some "cv") 10 fileDirectW Op.put =
      Except.error ApiError.authenticationFailure :=
  (claim7_expired_user_authentication_failure [vUserW] envW vUserW "cv" 10 5
    fileDirectW Op.put rfl rfl (by decide) rfl).1

/-! ## List accounting lemmas for the mutation coordinator -/

theorem sumOwned_nil (v : String) : sumOwned [] v = 0 := rfl

theorem sumOwned_cons (f : FileRec) (l : List FileRec) (v : String) :
    sumOwned (f :: l) v =
      (if f.fileOwner == v then f.size else 0) + sumOwned l v := by
  cases h : (f.fileOwner == v) <;> simp [sumOwned, List.filter_cons, h]

theorem sumOwned_removeFile (l : List FileRec) (url : List String) (v : String) :
    sumOwned l v = sumOwned (removeFile l url) v +
      (match l.find? (fun f => f.url == url) with
       | Option.some f => if f.fileOwner == v then f.size else 0
       | Option.none => 0) := by
  induction l with
  | nil => simp [removeFile, sumOwned]
  | cons f fs ih =>
      cases h : (f.url == url) with
      | true =>
          simp only [removeFile, h, if_true, List.find?, sumOwned_cons]
          omega
      | false =>
          simp only [removeFile, h, Bool.false_eq_true, if_false, List.find?,
            sumOwned_cons]
          omega

theorem find?_removeFile_of_ne (l : List FileRec) (url url' : List String)
    (h : url' ≠ url) :
    (removeFile l url).find? (fun f => f.url == url') =
      l.find? (fun f => f.url == url') := by
  induction l with
  | nil => rfl
  | cons f fs ih =>
      cases hf : (f.url == url) with
      | true =>
          have hfe : f.url = url := by simpa using hf
          have hne : (f.url == url') = false := by
            simp [hfe]
            exact fun hh => h hh.symm
          simp only [removeFile, hf, if_true, List.find?, hne]
      | false =>
          simp only [removeFile, hf, Bool.false_eq_true, if_false, List.find?]
          cases hg : (f.url == url') <;> simp [hg, ih]

theorem find?_removeFile_self (l : List FileRec) (url : List String)
    (hnd : (l.map FileRec.url).Nodup) :
    (removeFile l url).find? (fun f => f.url == url) = Option.none := by
  induction l with
  | nil => rfl
  | cons f fs ih =>
      rw [List.map_cons, List.nodup_cons] at hnd
      cases hf : (f.url == url) with
      | true =>
          have hfe : f.url = url := by simpa using hf
          simp only [removeFile, hf, if_true]
          rw [List.find?_eq_none]
          intro g hg hgp
          have hge : g.url = url := by simpa using hgp
          exact hnd.1 (by rw [hfe]; exact List.mem_map.mpr ⟨g, hg, hge⟩)
      | false =>
          simp only [removeFile, hf, Bool.false_eq_true, if_false, List.find?,
            hf]
          exact ih hnd.2

/-- Claim C5: a MOVE between two owners' paths reassigns ownership to the
destination path-owner, updates both owners' accounted sizes and the url
atomically; and whenever any step fails (in particular when the
destination owner would exceed quota) the whole move is rolled back,
leaving every accounted size unchanged and the original file intact at its
original path. -/
theorem claim5_move_atomic_rollback (s : Store) (src dst : List String)
    (f : FileRec) (newOwner : String)
    (hnd : (s.files.map FileRec.url).Nodup)
    (hsrc : lookupFile s src = Option.some f)
    (hdst : dst.head? = Option.some newOwner)
    (hfree : lookupFile s dst = Option.none) :
    (∀ s', moveFile s src dst = Except.ok s' →
      lookupFile s' dst = Option.some { f with url := dst, fileOwner := newOwner } ∧
      lookupFile s' src = Option.none ∧
      (f.fileOwner ≠ newOwner →
        s'.usize f.fileOwner = s.usize f.fileOwner - f.size ∧
        s'.usize newOwner = s.usize newOwner + f.size) ∧
      (∀ v, v ≠ f.fileOwner → v ≠ newOwner → s'.usize v = s.usize v)) ∧
    (∀ e, moveFile s src dst = Except.error e →
      applyOp s (MutOp.move src dst) = s ∧
      lookupFile (applyOp s (MutOp.move src dst)) src = Option.some f ∧
      ∀ v, (applyOp s (MutOp.move src dst)).usize v = s.usize v) ∧
    (f.fileOwner ≠ newOwner → s.maxStorage newOwner < s.usize newOwner + f.size →
      moveFile s src dst = Except.error MutErr.quotaExceeded) := by
  have hne : src ≠ dst := by
    intro h
    rw [h, hfree] at hsrc
    cases hsrc
  refine ⟨?_, ?_, ?_⟩
  · intro s' hok
    simp only [moveFile, hsrc, hdst, hfree] at hok
    split at hok
    · cases hok
      refine ⟨?_, ?_, ?_, ?_⟩
      · simp [lookupFile, List.find?]
      · have hhd : (dst == src) = false := by
          simp only [beq_eq_false_iff_ne]
          exact hne.symm
        simp only [lookupFile, List.find?, hhd]
        exact find?_removeFile_self s.files src hnd
      · intro hno
        constructor
        · simp [credit, debit, updUsize, hno]
        · simp [credit, debit, updUsize, Ne.symm hno]
      · intro v hv1 hv2
        simp [credit, debit, updUsize, hv1, hv2]
    · cases hok
  · intro e herr
    have hup : applyOp s (MutOp.move src dst) = s := by
      simp [applyOp, herr]
    exact ⟨hup, by rw [hup]; exact hsrc, fun v => by rw [hup]⟩
  · intro hno hq
    have hval : credit (debit s.usize f.fileOwner f.size) newOwner f.size newOwner =
        s.usize newOwner + f.size := by
      simp [credit, debit, updUsize, Ne.symm hno]
    simp only [moveFile, hsrc, hdst, hfree, hval]
    rw [if_neg (by omega)]

/-- Witness for claim C5: moving alice's 10-byte file into bob's namespace
while bob is at 99 of 100 bytes fails with quotaExceeded and changes
nothing. -/
theorem claim5_move_atomic_rollback_witness :
    moveFile sMoveW ["alice", "f"] ["bob", "f"] =
      Except.error MutErr.quotaExceeded ∧
    applyOp sMoveW (MutOp.move ["alice", "f"] ["bob", "f"]) = sMoveW := by
  have h := claim5_move_atomic_rollback sMoveW ["alice", "f"] ["bob", "f"]
    { url := ["alice", "f"], fileOwner := "alice", size := 10,
      perm := FilePerm.unset, content := 0 }
    "bob" (by decide) rfl rfl rfl
  have herr := h.2.2 (by decide) (by decide)
  exact ⟨herr, (h.2.1 _ herr).1⟩

theorem lookupFile_setPerm (s : Store) (url url' : List String) (p : FilePerm) :
    lookupFile (setPerm s url p) url' =
      (lookupFile s url').map
        (fun g => if g.url == url then { g with perm := p } else g) := by
  simp only [lookupFile, setPerm]
  induction s.files with
  | nil => rfl
  | cons g gs ih =>
      simp only [List.map_cons, List.find?]
      have hurl : ((if g.url == url then { g with perm := p } else g).url == url') =
          (g.url == url') := by
        cases h : (g.url == url) <;> simp [h]
      rw [hurl]
      cases hg : (g.url == url') with
      | true => simp only [hg, Option.map_some']
      | false => simp only [hg]; exact ih

/-- Claim C9, counterexample: eve, the file-owner of alice/a, copies it to
alice/b.  Two clauses of the claim fail at this one input: the source
owner's accounted quota is not left unchanged (eve, the source file-owner
and acting user, is credited 10 bytes, moving her usize from 10 to 20),
and the new record's path-owner is alice — the destination path's first
segment — not the acting user eve. -/
theorem claim9_counterexample :
    (lookupFile sCopyCrossW ["alice", "a"]).map FileRec.fileOwner =
        Option.some "eve" ∧
    sCopyCrossW.usize "eve" = 10 ∧
    (applyOp sCopyCrossW (MutOp.copy "eve" ["alice", "a"] ["alice", "b"])).usize
        "eve" = 20 ∧
    (lookupFile (applyOp sCopyCrossW
        (MutOp.copy "eve" ["alice", "a"] ["alice", "b"])) ["alice", "b"]).map
        pOwner = Option.some "alice" ∧
    "alice" ≠ "eve" := by
  decide

/-- Claim C9 as amended: a committed COPY leaves the source record
unchanged and debits nothing — its only quota change is a credit of the
copied size to the acting user, so the source owner's quota is unchanged
whenever the source file-owner is not the actor; the new record's
file-owner is the acting user; the source's permission never blocks the
copy; and a later deletion of the source leaves the copied record's
permission, owner and byte content unchanged. -/
theorem claim9_copy_frame (s : Store) (actor : String) (src dst : List String)
    (f : FileRec) (s' : Store)
    (hsrc : lookupFile s src = Option.some f)
    (hok : copyFile s actor src dst = Except.ok s') :
    lookupFile s' src = Option.some f ∧
    (f.fileOwner ≠ actor → s'.usize f.fileOwner = s.usize f.fileOwner) ∧
    s'.usize actor = s.usize actor + f.size ∧
    lookupFile s' dst = Option.some
      { url := dst, fileOwner := actor, size := f.size, perm := f.perm,
        content := f.content } ∧
    (∀ p', ∃ s₂, copyFile (setPerm s src p') actor src dst = Except.ok s₂) ∧
    (∀ s'', delFile s' src = Except.ok s'' →
      lookupFile s'' dst = Option.some
        { url := dst, fileOwner := actor, size := f.size, perm := f.perm,
          content := f.content }) := by
  simp only [copyFile, hsrc] at hok
  cases hfree : lookupFile s dst with
  | some g => rw [hfree] at hok; cases hok
  | none =>
      rw [hfree] at hok
      rcases Decidable.em (credit s.usize actor f.size actor ≤ s.maxStorage actor)
        with hq | hq
      · rw [if_pos hq] at hok
        cases hok
        have hne : src ≠ dst := by
          intro h
          rw [h, hfree] at hsrc
          cases hsrc
        have hhd : (dst == src) = false := by
          simp only [beq_eq_false_iff_ne]
          exact hne.symm
        have hs'src :
            List.find? (fun g => g.url == src)
              ({ url := dst, fileOwner := actor, size := f.size, perm := f.perm,
                 content := f.content } :: s.files) = Option.some f := by
          simp only [List.find?, hhd]
          exact hsrc
        refine ⟨hs'src, ?_, ?_, ?_, ?_, ?_⟩
        · intro hno
          simp [credit, updUsize, hno]
        · simp [credit, updUsize]
        · simp [lookupFile, List.find?]
        · intro p'
          have hsrc' : s.files.find? (fun g => g.url == src) = Option.some f := hsrc
          have hfp : (f.url == src) = true := by
            simpa using List.find?_some hsrc'
          have husize : (setPerm s src p').usize = s.usize := rfl
          have hmax : (setPerm s src p').maxStorage = s.maxStorage := rfl
          have hres : copyFile (setPerm s src p') actor src dst = Except.ok
              { users := (setPerm s src p').users,
                files := { url := dst, fileOwner := actor, size := f.size,
                           perm := p', content := f.content } ::
                  (setPerm s src p').files,
                usize := credit s.usize actor f.size,
                maxStorage := s.maxStorage } := by
            simp only [copyFile, lookupFile_setPerm, hsrc, hfree, Option.map_some',
              Option.map_none', hfp, eq_self_iff_true, if_true, husize, hmax]
            rw [if_pos hq]
          exact ⟨_, hres⟩
        · intro s'' hdel
          simp only [delFile, lookupFile, hs'src] at hdel
          cases hdel
          have hrm : removeFile
              ({ url := dst, fileOwner := actor, size := f.size, perm := f.perm,
                 content := f.content } :: s.files) src =
              { url := dst, fileOwner := actor, size := f.size, perm := f.perm,
                content := f.content } :: removeFile s.files src := by
            simp [removeFile, hhd]
          simp [lookupFile, List.find?, hrm]
      · rw [if_neg hq] at hok
        cases hok

/-- Witness for the amended claim C9: bob copies alice's private file into
his namespace — the source record and alice's quota are untouched. -/
theorem claim9_copy_frame_witness :
    lookupFile (applyOp sCopyW (MutOp.copy "bob" ["alice", "a"] ["bob", "b"]))
        ["alice", "a"] = Option.some fCopyW ∧
    (applyOp sCopyW (MutOp.copy "bob" ["alice", "a"] ["bob", "b"])).usize
        "alice" = sCopyW.usize "alice" := by
  have h := claim9_copy_frame sCopyW "bob" ["alice", "a"] ["bob", "b"] fCopyW
    (applyOp sCopyW (MutOp.copy "bob" ["alice", "a"] ["bob", "b"])) rfl rfl
  exact ⟨h.1, h.2.1 (by decide)⟩

theorem credit_at (g : String → Nat) (u : String) (n : Nat) :
    credit g u n u = g u + n := by
  simp [credit, updUsize]

theorem credit_ne (g : String → Nat) (u : String) (n : Nat) (v : String)
    (h : v ≠ u) : credit g u n v = g v := by
  simp [credit, updUsize, h]

theorem debit_at (g : String → Nat) (u : String) (n : Nat) :
    debit g u n u = g u - n := by
  simp [debit, updUsize]

theorem debit_ne (g : String → Nat) (u : String) (n : Nat) (v : String)
    (h : v ≠ u) : debit g u n v = g v := by
  simp [debit, updUsize, h]

theorem sumOwned_replace (l : List FileRec) (url : List String)
    (old new : FileRec) (v : String)
    (hfind : l.find? (fun f => f.url == url) = Option.some old) :
    sumOwned (new :: removeFile l url) v +
        (if old.fileOwner == v then old.size else 0) =
      sumOwned l v + (if new.fileOwner == v then new.size else 0) := by
  have hrm := sumOwned_removeFile l url v
  rw [hfind] at hrm
  have hrm2 : sumOwned l v = sumOwned (removeFile l url) v +
      (if old.fileOwner == v then old.size else 0) := hrm
  rw [sumOwned_cons]
  omega

theorem sumOwned_filter_partition (l : List FileRec) (p : FileRec → Bool)
    (v : String) :
    sumOwned l v =
      sumOwned (l.filter p) v + sumOwned (l.filter (fun f => !(p f))) v := by
  induction l with
  | nil => rfl
  | cons f fs ih =>
      cases hp : p f <;>
        simp only [List.filter_cons, hp, Bool.not_true, Bool.not_false,
          Bool.false_eq_true, if_true, if_false, sumOwned_cons, ih] <;>
        omega

theorem sumOwned_filter_ne_owner (l : List FileRec) (u v : String)
    (hv : v ≠ u) :
    sumOwned (l.filter (fun f => !(f.fileOwner == u))) v = sumOwned l v := by
  induction l with
  | nil => rfl
  | cons f fs ih =>
      cases hfu : (f.fileOwner == u) with
      | true =>
          have hfe : f.fileOwner = u := by simpa using hfu
          have hfv : (f.fileOwner == v) = false := by
            simp only [beq_eq_false_iff_ne, hfe]
            exact fun e => hv e.symm
          simp only [List.filter_cons, hfu, Bool.not_true, Bool.false_eq_true,
            if_false, sumOwned_cons, hfv, ih]
          omega
      | false =>
          simp only [List.filter_cons, hfu, Bool.not_false, if_true,
            sumOwned_cons, ih]

theorem sumOwned_map_transfer (l : List FileRec) (u v : String) :
    sumOwned (l.map (fun f =>
        if f.fileOwner == u then { f with fileOwner := pOwner f } else f)) v =
      sumOwned (l.filter (fun f => !(f.fileOwner == u))) v +
      ((l.filter (fun f => f.fileOwner == u && pOwner f == v)).map
        (fun f => f.size)).sum := by
  induction l with
  | nil => rfl
  | cons f fs ih =>
      cases hfu : (f.fileOwner == u) with
      | true =>
          cases hpv : (pOwner f == v) with
          | true =>
              simp only [List.map_cons, hfu, if_true, List.filter_cons,
                Bool.not_true, Bool.false_eq_true, if_false, Bool.true_and,
                hpv, sumOwned_cons, List.map_cons, List.sum_cons, ih]
              omega
          | false =>
              simp only [List.map_cons, hfu, if_true, List.filter_cons,
                Bool.not_true, Bool.false_eq_true, if_false, Bool.true_and,
                hpv, sumOwned_cons, ih]
              omega
      | false =>
          simp only [List.map_cons, hfu, Bool.false_eq_true, if_false,
            List.filter_cons, Bool.not_false, if_true, Bool.false_and,
            sumOwned_cons, ih]
          omega

theorem sumOwned_filter_owner_self (l : List FileRec) (u : String) :
    sumOwned (l.filter (fun f => !(f.fileOwner == u))) u = 0 := by
  induction l with
  | nil => rfl
  | cons f fs ih =>
      cases hfu : (f.fileOwner == u) <;>
        simp [List.filter_cons, hfu, sumOwned_cons, ih]

theorem filter_kept_transfer_self (l : List FileRec) (u : String) :
    (l.filter (fun f => !(pOwner f == u))).filter
      (fun f => f.fileOwner == u && pOwner f == u) = [] := by
  induction l with
  | nil => rfl
  | cons f fs ih =>
      cases hp : (pOwner f == u) <;>
        simp [List.filter_cons, hp, ih, Bool.and_false]

theorem SizeInv_insert_step (g : String → Nat) (files : List FileRec)
    (neu : FileRec) (hg : ∀ v, g v = sumOwned files v) :
    ∀ v, credit g neu.fileOwner neu.size v = sumOwned (neu :: files) v := by
  intro v
  rw [sumOwned_cons]
  by_cases hv : v = neu.fileOwner
  · subst hv
    rw [credit_at, hg]
    simp only [beq_self_eq_true, if_true]
    omega
  · rw [credit_ne _ _ _ _ hv, hg]
    have h1 : (neu.fileOwner == v) = false := by
      simp only [beq_eq_false_iff_ne]
      exact fun e => hv e.symm
    simp only [h1, Bool.false_eq_true, if_false]
    omega

theorem SizeInv_remove_step (g : String → Nat) (files : List FileRec)
    (url : List String) (old : FileRec)
    (hfind : files.find? (fun f => f.url == url) = Option.some old)
    (hg : ∀ v, g v = sumOwned files v) :
    ∀ v, debit g old.fileOwner old.size v = sumOwned (removeFile files url) v := by
  intro v
  have hrm : sumOwned files v = sumOwned (removeFile files url) v +
      (if old.fileOwner == v then old.size else 0) := by
    have hx := sumOwned_removeFile files url v
    rw [hfind] at hx
    exact hx
  by_cases hv : v = old.fileOwner
  · subst hv
    rw [debit_at, hg]
    simp only [beq_self_eq_true, if_true] at hrm
    omega
  · rw [debit_ne _ _ _ _ hv, hg]
    have h2 : (old.fileOwner == v) = false := by
      simp only [beq_eq_false_iff_ne]
      exact fun e => hv e.symm
    simp only [h2, Bool.false_eq_true, if_false] at hrm
    omega

theorem SizeInv_replace_step (g : String → Nat) (files : List FileRec)
    (url : List String) (old neu : FileRec)
    (hfind : files.find? (fun f => f.url == url) = Option.some old)
    (hg : ∀ v, g v = sumOwned files v) :
    ∀ v, credit (debit g old.fileOwner old.size) neu.fileOwner neu.size v =
      sumOwned (neu :: removeFile files url) v := by
  intro v
  have hrm : sumOwned files v = sumOwned (removeFile files url) v +
      (if old.fileOwner == v then old.size else 0) := by
    have hx := sumOwned_removeFile files url v
    rw [hfind] at hx
    exact hx
  rw [sumOwned_cons]
  by_cases hv1 : v = neu.fileOwner <;> by_cases hv2 : v = old.fileOwner
  · subst hv1
    rw [credit_at]
    rw [← hv2] at hrm ⊢
    rw [debit_at, hg]
    simp only [beq_self_eq_true, if_true] at hrm ⊢
    omega
  · subst hv1
    rw [credit_at, debit_ne _ _ _ _ hv2, hg]
    have hbo : (old.fileOwner == neu.fileOwner) = false := by
      simp only [beq_eq_false_iff_ne]
      exact fun e => hv2 e.symm
    simp only [beq_self_eq_true, if_true, hbo, Bool.false_eq_true, if_false]
      at hrm ⊢
    omega
  · subst hv2
    rw [credit_ne _ _ _ _ hv1, debit_at, hg]
    have hbn : (neu.fileOwner == old.fileOwner) = false := by
      simp only [beq_eq_false_iff_ne]
      exact fun e => hv1 e.symm
    simp only [beq_self_eq_true, if_true, hbn, Bool.false_eq_true, if_false]
      at hrm ⊢
    omega
  · rw [credit_ne _ _ _ _ hv1, debit_ne _ _ _ _ hv2, hg]
    have h1 : (neu.fileOwner == v) = false := by
      simp only [beq_eq_false_iff_ne]
      exact fun e => hv1 e.symm
    have h2 : (old.fileOwner == v) = false := by
      simp only [beq_eq_false_iff_ne]
      exact fun e => hv2 e.symm
    simp only [h1, h2, Bool.false_eq_true, if_false] at hrm ⊢
    omega

/-- Claim C6: after every committed mutation (create/overwrite with any
conflict policy, delete, move, copy, user deletion), every user's stored
accounted size equals the sum of the sizes of the files whose file-owner
is that user — the invariant is re-established at every commit point, and
a failed transaction leaves the state unchanged. -/
theorem claim6_usize_invariant (s : Store) (op : MutOp) (h : SizeInv s) :
    SizeInv (applyOp s op) := by
  cases op with
  | put a url sz p c pol =>
      simp only [applyOp]
      cases hres : putFile s a url sz p c pol with
      | error e => exact h
      | ok s' =>
          cases hL : lookupFile s url with
          | none =>
              simp only [putFile, hL] at hres
              split at hres
              · cases hres
                intro v
                exact SizeInv_insert_step s.usize s.files
                  { url := url, fileOwner := a, size := sz, perm := p,
                    content := c } h v
              · cases hres
          | some old =>
              cases pol with
              | abort =>
                  simp only [putFile, hL] at hres
                  cases hres
              | skip =>
                  simp only [putFile, hL] at hres
                  cases hres
                  exact h
              | overwrite =>
                  simp only [putFile, hL] at hres
                  split at hres
                  · cases hres
                    intro v
                    exact SizeInv_replace_step s.usize s.files url old
                      { url := url, fileOwner := a, size := sz, perm := p,
                        content := c } hL h v
                  · cases hres
  | del url =>
      simp only [applyOp]
      cases hres : delFile s url with
      | error e => exact h
      | ok s' =>
          cases hL : lookupFile s url with
          | none =>
              simp only [delFile, hL] at hres
              cases hres
          | some f =>
              simp only [delFile, hL] at hres
              cases hres
              intro v
              exact SizeInv_remove_step s.usize s.files url f hL h v
  | move src dst =>
      simp only [applyOp]
      cases hres : moveFile s src dst with
      | error e => exact h
      | ok s' =>
          cases hL : lookupFile s src with
          | none =>
              simp only [moveFile, hL] at hres
              cases hres
          | some f =>
              cases hhd : dst.head? with
              | none =>
                  simp only [moveFile, hL, hhd] at hres
                  cases hres
              | some newOwner =>
                  cases hfree : lookupFile s dst with
                  | some g =>
                      simp only [moveFile, hL, hhd, hfree] at hres
                      cases hres
                  | none =>
                      simp only [moveFile, hL, hhd, hfree] at hres
                      split at hres
                      · cases hres
                        intro v
                        exact SizeInv_replace_step s.usize s.files src f
                          { url := dst, fileOwner := newOwner, size := f.size,
                            perm := f.perm, content := f.content } hL h v
                      · cases hres
  | copy a src dst =>
      simp only [applyOp]
      cases hres : copyFile s a src dst with
      | error e => exact h
      | ok s' =>
          cases hL : lookupFile s src with
          | none =>
              simp only [copyFile, hL] at hres
              cases hres
          | some f =>
              cases hfree : lookupFile s dst with
              | some g =>
                  simp only [copyFile, hL, hfree] at hres
                  cases hres
              | none =>
                  simp only [copyFile, hL, hfree] at hres
                  split at hres
                  · cases hres
                    intro v
                    exact SizeInv_insert_step s.usize s.files
                      { url := dst, fileOwner := a, size := f.size,
                        perm := f.perm, content := f.content } h v
                  · cases hres
  | delUser u =>
      simp only [applyOp]
      cases hres : deleteUserOp s u with
      | error e => exact h
      | ok s' =>
          simp only [deleteUserOp] at hres
          split at hres
          · cases hres
            intro v
            by_cases hv : v = u
            · subst hv
              simp only [eq_self_iff_true, if_true]
              rw [sumOwned_map_transfer, sumOwned_filter_owner_self,
                filter_kept_transfer_self]
              simp
            · simp only [hv, if_false]
              rw [sumOwned_map_transfer, sumOwned_filter_ne_owner _ _ _ hv]
              have hpart := sumOwned_filter_partition s.files
                (fun f => pOwner f == u) v
              rw [h v]
              omega
          · cases hres

/-- Witness for claim C6: the empty store satisfies the invariant, and it
is preserved across a concrete committed mutation. -/
theorem claim6_usize_invariant_witness :
    SizeInv (applyOp emptyStoreW
      (MutOp.put "alice" ["alice", "x"] 5 FilePerm.unset 0
        ConflictPolicy.abort)) :=
  claim6_usize_invariant emptyStoreW _ (fun _ => rfl)

/-! ## Split and join lemmas for the path URI codec -/

theorem splitOnSlash_ne_nil (l : List Nat) : splitOnSlash l ≠ [] := by
  cases l with
  | nil => simp [splitOnSlash]
  | cons c cs =>
      simp only [splitOnSlash]
      by_cases hc : c = 47
      · simp [hc]
      · simp only [if_neg hc]
        cases splitOnSlash cs <;> simp

theorem joinSlash_splitOnSlash (l : List Nat) : joinSlash (splitOnSlash l) = l := by
  induction l with
  | nil => rfl
  | cons c cs ih =>
      simp only [splitOnSlash]
      by_cases hc : c = 47
      · subst hc
        rw [if_pos rfl]
        cases hr : splitOnSlash cs with
        | nil => exact absurd hr (splitOnSlash_ne_nil cs)
        | cons s ss =>
            rw [hr] at ih
            show joinSlash ([] :: s :: ss) = 47 :: cs
            simp only [joinSlash, List.nil_append]
            rw [ih]
      · rw [if_neg hc]
        cases hr : splitOnSlash cs with
        | nil => exact absurd hr (splitOnSlash_ne_nil cs)
        | cons s ss =>
            rw [hr] at ih
            cases ss with
            | nil =>
                show joinSlash [c :: s] = c :: cs
                simp only [joinSlash] at ih ⊢
                rw [ih]
            | cons t ts =>
                show joinSlash ((c :: s) :: t :: ts) = c :: cs
                simp only [joinSlash] at ih ⊢
                rw [List.cons_append, ih]

theorem splitOnSlash_append_noslash (s t : List Nat) (hs : 47 ∉ s) :
    splitOnSlash (s ++ 47 :: t) = s :: splitOnSlash t := by
  induction s with
  | nil => simp [splitOnSlash]
  | cons c s' ih =>
      have hc : c ≠ 47 := fun e => hs (by rw [e]; exact List.mem_cons_self _ _)
      have hs' : 47 ∉ s' := fun m => hs (List.mem_cons_of_mem _ m)
      simp only [List.cons_append, splitOnSlash, if_neg hc, List.append_eq,
        ih hs']

theorem splitOnSlash_noslash (s : List Nat) (hs : 47 ∉ s) :
    splitOnSlash s = [s] := by
  induction s with
  | nil => rfl
  | cons c s' ih =>
      have hc : c ≠ 47 := fun e => hs (by rw [e]; exact List.mem_cons_self _ _)
      have hs' : 47 ∉ s' := fun m => hs (List.mem_cons_of_mem _ m)
      simp only [splitOnSlash, if_neg hc, ih hs']

theorem splitOnSlash_joinSlash (segs : List (List Nat))
    (h : ∀ s ∈ segs, 47 ∉ s) (hne : segs ≠ []) :
    splitOnSlash (joinSlash segs) = segs := by
  induction segs with
  | nil => exact absurd rfl hne
  | cons s ss ih =>
      cases ss with
      | nil =>
          show splitOnSlash (joinSlash [s]) = [s]
          simp only [joinSlash]
          exact splitOnSlash_noslash s (h s (List.mem_cons_self _ _))
      | cons t ts =>
          show splitOnSlash (joinSlash (s :: t :: ts)) = s :: t :: ts
          simp only [joinSlash]
          rw [splitOnSlash_append_noslash _ _ (h s (List.mem_cons_self _ _))]
          rw [ih (fun x hx => h x (List.mem_cons_of_mem _ hx)) (by simp)]

theorem mem_of_mem_splitOnSlash :
    ∀ (l : List Nat) (s : List Nat), s ∈ splitOnSlash l → ∀ c ∈ s, c ∈ l := by
  intro l
  induction l with
  | nil =>
      intro s hs c hc
      simp only [splitOnSlash, List.mem_singleton] at hs
      subst hs
      cases hc
  | cons d ds ih =>
      intro s hs c hc
      simp only [splitOnSlash] at hs
      by_cases hd : d = 47
      · rw [if_pos hd] at hs
        rcases List.mem_cons.mp hs with rfl | hmem
        · cases hc
        · exact List.mem_cons_of_mem _ (ih s hmem c hc)
      · rw [if_neg hd] at hs
        cases hr : splitOnSlash ds with
        | nil => exact absurd hr (splitOnSlash_ne_nil ds)
        | cons t ts =>
            rw [hr] at hs
            rcases List.mem_cons.mp hs with rfl | hmem
            · rcases List.mem_cons.mp hc with rfl | hct
              · exact List.mem_cons_self _ _
              · have hts : t ∈ splitOnSlash ds := by
                  rw [hr]
                  exact List.mem_cons_self _ _
                exact List.mem_cons_of_mem _ (ih t hts c hct)
            · have hss : s ∈ splitOnSlash ds := by
                rw [hr]
                exact List.mem_cons_of_mem _ hmem
              exact List.mem_cons_of_mem _ (ih s hss c hc)

/-! ## Escape and decode lemmas for the path URI codec -/

theorem hexVal_hexDigitChar (n : Nat) (h : n < 16) :
    hexVal (hexDigitChar n) = Option.some n := by
  by_cases h10 : n < 10
  · simp only [hexDigitChar, if_pos h10, hexVal]
    rw [if_pos (by omega)]
    congr 1
    omega
  · simp only [hexDigitChar, if_neg h10, hexVal]
    rw [if_neg (by omega), if_pos (by omega)]
    congr 1
    omega

theorem hexDigitChar_ne_47 (n : Nat) : hexDigitChar n ≠ 47 := by
  simp only [hexDigitChar]
  split <;> omega

theorem mem_escBytes_ne_47 (bs : List Nat) (x : Nat) (hx : x ∈ escBytes bs) :
    x ≠ 47 := by
  induction bs with
  | nil => cases hx
  | cons b bs' ih =>
      simp only [escBytes, escapeByte, List.cons_append, List.nil_append,
        List.mem_cons] at hx
      rcases hx with rfl | rfl | rfl | hmem
      · omega
      · exact hexDigitChar_ne_47 _
      · exact hexDigitChar_ne_47 _
      · exact ih hmem

theorem encSeg_no_slash (s : List Nat) : 47 ∉ encSeg s := by
  induction s with
  | nil => simp [encSeg]
  | cons c cs ih =>
      simp only [encSeg, List.mem_append]
      rintro (h | h)
      · by_cases hu : isUnreservedURI c
        · simp only [encChar, if_pos hu, List.mem_singleton] at h
          subst h
          exact absurd hu (by decide)
        · simp only [encChar, if_neg hu] at h
          exact mem_escBytes_ne_47 _ _ h rfl
      · exact ih h

theorem parseEsc_length (l : List Nat) (b : Nat) (r : List Nat)
    (h : parseEsc l = Option.some (b, r)) : r.length + 3 = l.length := by
  cases l with
  | nil => simp [parseEsc] at h
  | cons a l1 =>
      cases l1 with
      | nil => simp [parseEsc] at h
      | cons b1 l2 =>
          cases l2 with
          | nil => simp [parseEsc] at h
          | cons d l3 =>
              simp only [parseEsc] at h
              by_cases ha : a = 37
              · rw [if_pos ha] at h
                cases hh : hexVal b1 with
                | none =>
                    cases hl : hexVal d <;> simp only [hh, hl] at h <;> cases h
                | some hv =>
                    cases hl : hexVal d with
                    | none => simp only [hh, hl] at h; cases h
                    | some lv =>
                        simp only [hh, hl, Option.some.injEq,
                          Prod.mk.injEq] at h
                        obtain ⟨-, rfl⟩ := h
                        simp [List.length_cons]
              · rw [if_neg ha] at h
                cases h

theorem decodeUtf8Escape_length (l : List Nat) (cp : Nat) (r : List Nat)
    (h : decodeUtf8Escape l = Option.some (cp, r)) : r.length + 3 ≤ l.length := by
  simp only [decodeUtf8Escape] at h
  cases hp : parseEsc l with
  | none =>
      simp only [hp] at h
      exact Option.noConfusion h
  | some pr =>
      obtain ⟨b, r1⟩ := pr
      simp only [hp] at h
      have hl1 := parseEsc_length _ _ _ hp
      split at h
      · simp only [Option.some.injEq, Prod.mk.injEq] at h
        obtain ⟨-, rfl⟩ := h
        omega
      · split at h
        · cases hp2 : parseEsc r1 with
          | none =>
              simp only [hp2] at h
              exact Option.noConfusion h
          | some pr2 =>
              obtain ⟨b2, r2⟩ := pr2
              simp only [hp2] at h
              have hl2 := parseEsc_length _ _ _ hp2
              split at h
              · simp only [Option.some.injEq, Prod.mk.injEq] at h
                obtain ⟨-, rfl⟩ := h
                omega
              · exact Option.noConfusion h
        · split at h
          · cases hp2 : parseEsc r1 with
            | none =>
                simp only [hp2] at h
                exact Option.noConfusion h
            | some pr2 =>
                obtain ⟨b2, r2⟩ := pr2
                simp only [hp2] at h
                have hl2 := parseEsc_length _ _ _ hp2
                cases hp3 : parseEsc r2 with
                | none =>
                    simp only [hp3] at h
                    exact Option.noConfusion h
                | some pr3 =>
                    obtain ⟨b3, r3⟩ := pr3
                    simp only [hp3] at h
                    have hl3 := parseEsc_length _ _ _ hp3
                    split at h
                    · simp only [Option.some.injEq, Prod.mk.injEq] at h
                      obtain ⟨-, rfl⟩ := h
                      omega
                    · exact Option.noConfusion h
          · split at h
            · cases hp2 : parseEsc r1 with
              | none =>
                  simp only [hp2] at h
                  exact Option.noConfusion h
              | some pr2 =>
                  obtain ⟨b2, r2⟩ := pr2
                  simp only [hp2] at h
                  have hl2 := parseEsc_length _ _ _ hp2
                  cases hp3 : parseEsc r2 with
                  | none =>
                      simp only [hp3] at h
                      exact Option.noConfusion h
                  | some pr3 =>
                      obtain ⟨b3, r3⟩ := pr3
                      simp only [hp3] at h
                      have hl3 := parseEsc_length _ _ _ hp3
                      cases hp4 : parseEsc r3 with
                      | none =>
                          simp only [hp4] at h
                          exact Option.noConfusion h
                      | some pr4 =>
                          obtain ⟨b4, r4⟩ := pr4
                          simp only [hp4] at h
                          have hl4 := parseEsc_length _ _ _ hp4
                          split at h
                          · simp only [Option.some.injEq, Prod.mk.injEq] at h
                            obtain ⟨-, rfl⟩ := h
                            omega
                          · exact Option.noConfusion h
            · exact Option.noConfusion h

theorem decSegF_nil (fuel : Nat) : decSegF fuel [] = Option.some [] := by
  cases fuel <;> rfl

theorem decSegF_adequate (fuel : Nat) :
    ∀ (l : List Nat), l.length ≤ fuel → decSegF fuel l = decSegF l.length l := by
  induction fuel using Nat.strong_induction_on with
  | _ fuel ih =>
      intro l h
      cases l with
      | nil => rw [decSegF_nil, decSegF_nil]
      | cons c rest =>
          cases fuel with
          | zero => simp at h
          | succ f =>
              simp only [decSegF, List.length_cons]
              by_cases hc : c = 37
              · rw [if_pos hc, if_pos hc]
                cases he : decodeUtf8Escape (c :: rest) with
                | none => rfl
                | some pr =>
                    obtain ⟨cp, r⟩ := pr
                    have hlen := decodeUtf8Escape_length _ _ _ he
                    simp only [List.length_cons] at hlen h
                    show (decSegF f r).map (fun t => cp :: t) =
                      (decSegF rest.length r).map (fun t => cp :: t)
                    rw [ih f (by omega) r (by omega),
                      ih rest.length (by omega) r (by omega)]
              · rw [if_neg hc, if_neg hc]
                simp only [List.length_cons] at h
                rw [ih f (by omega) rest (by omega)]

theorem decSeg_cons_notpct (c : Nat) (hc : c ≠ 37) (rest : List Nat) :
    decSeg (c :: rest) = (decSeg rest).map (fun t => c :: t) := by
  show decSegF (c :: rest).length (c :: rest) = _
  simp only [List.length_cons, decSegF, if_neg hc]
  rfl

theorem decSeg_pct (rest : List Nat) :
    decSeg (37 :: rest) =
      match decodeUtf8Escape (37 :: rest) with
      | Option.some (cp, r) => (decSeg r).map (fun t => cp :: t)
      | Option.none => Option.none := by
  show decSegF (37 :: rest).length (37 :: rest) = _
  simp only [List.length_cons, decSegF, if_pos rfl]
  cases he : decodeUtf8Escape (37 :: rest) with
  | none => rfl
  | some pr =>
      obtain ⟨cp, r⟩ := pr
      have hlen := decodeUtf8Escape_length _ _ _ he
      simp only [List.length_cons] at hlen
      show (decSegF rest.length r).map (fun t => cp :: t) = _
      rw [decSegF_adequate rest.length r (by omega)]
      rfl

theorem parseEsc_escapeByte (b : Nat) (t : List Nat) (hb : b < 256) :
    parseEsc (escapeByte b ++ t) = Option.some (b, t) := by
  have k : 16 * (b / 16) + b % 16 = b := by omega
  simp only [escapeByte, List.cons_append, List.nil_append, parseEsc,
    if_pos rfl, hexVal_hexDigitChar (b / 16) (by omega),
    hexVal_hexDigitChar (b % 16) (by omega), k, if_true]

theorem decodeUtf8Escape_escBytes (c : Nat) (h1 : c < 1114112)
    (h2 : ¬(55296 ≤ c ∧ c ≤ 57343)) (rest : List Nat) :
    decodeUtf8Escape (escBytes (utf8Bytes c) ++ rest) = Option.some (c, rest) := by
  by_cases hr1 : c < 128
  · have p1 : parseEsc (escapeByte c ++ rest) = Option.some (c, rest) :=
      parseEsc_escapeByte c rest (by omega)
    simp only [utf8Bytes, if_pos hr1, escBytes, List.append_nil,
      decodeUtf8Escape, p1, if_pos hr1]
  · by_cases hr2 : c < 2048
    · have p2 : parseEsc (escapeByte (128 + c % 64) ++ rest) =
          Option.some (128 + c % 64, rest) :=
        parseEsc_escapeByte _ rest (by omega)
      have p1 : parseEsc
          (escapeByte (192 + c / 64) ++ (escapeByte (128 + c % 64) ++ rest)) =
          Option.some (192 + c / 64, escapeByte (128 + c % 64) ++ rest) :=
        parseEsc_escapeByte _ _ (by omega)
      have q1 : (192 + c / 64 < 128) = False := eq_false (by omega)
      have q2 : (194 ≤ 192 + c / 64 ∧ 192 + c / 64 ≤ 223) = True :=
        eq_true (by omega)
      have q3 : (128 ≤ 128 + c % 64 ∧ 128 + c % 64 ≤ 191) = True :=
        eq_true (by omega)
      have hv : (192 + c / 64 - 192) * 64 + (128 + c % 64 - 128) = c := by
        omega
      simp only [utf8Bytes, if_neg hr1, if_pos hr2, escBytes, List.append_nil,
        List.append_assoc, decodeUtf8Escape, p1, p2, q1, q2, q3, if_true,
        if_false, hv]
    · by_cases hr3 : c < 65536
      · have p3 : parseEsc (escapeByte (128 + c % 64) ++ rest) =
            Option.some (128 + c % 64, rest) :=
          parseEsc_escapeByte _ rest (by omega)
        have p2 : parseEsc (escapeByte (128 + c / 64 % 64) ++
            (escapeByte (128 + c % 64) ++ rest)) =
            Option.some (128 + c / 64 % 64, escapeByte (128 + c % 64) ++ rest) :=
          parseEsc_escapeByte _ _ (by omega)
        have p1 : parseEsc (escapeByte (224 + c / 4096) ++
            (escapeByte (128 + c / 64 % 64) ++
              (escapeByte (128 + c % 64) ++ rest))) =
            Option.some (224 + c / 4096, escapeByte (128 + c / 64 % 64) ++
              (escapeByte (128 + c % 64) ++ rest)) :=
          parseEsc_escapeByte _ _ (by omega)
        have q1 : (224 + c / 4096 < 128) = False := eq_false (by omega)
        have q2 : (194 ≤ 224 + c / 4096 ∧ 224 + c / 4096 ≤ 223) = False :=
          eq_false (by omega)
        have q3 : (224 ≤ 224 + c / 4096 ∧ 224 + c / 4096 ≤ 239) = True :=
          eq_true (by omega)
        have q4 : (((224 + c / 4096 = 224 ∧ 160 ≤ 128 + c / 64 % 64 ∧
              128 + c / 64 % 64 ≤ 191) ∨
            (225 ≤ 224 + c / 4096 ∧ 224 + c / 4096 ≤ 236 ∧
              128 ≤ 128 + c / 64 % 64 ∧ 128 + c / 64 % 64 ≤ 191) ∨
            (224 + c / 4096 = 237 ∧ 128 ≤ 128 + c / 64 % 64 ∧
              128 + c / 64 % 64 ≤ 159) ∨
            (238 ≤ 224 + c / 4096 ∧ 224 + c / 4096 ≤ 239 ∧
              128 ≤ 128 + c / 64 % 64 ∧ 128 + c / 64 % 64 ≤ 191)) ∧
           128 ≤ 128 + c % 64 ∧ 128 + c % 64 ≤ 191) = True :=
          eq_true (by omega)
        have hv : (224 + c / 4096 - 224) * 4096 +
            (128 + c / 64 % 64 - 128) * 64 + (128 + c % 64 - 128) = c := by
          omega
        simp only [utf8Bytes, if_neg hr1, if_neg hr2, if_pos hr3, escBytes,
          List.append_nil, List.append_assoc, decodeUtf8Escape, p1, p2, p3,
          q1, q2, q3, q4, if_true, if_false, hv]
      · have p4 : parseEsc (escapeByte (128 + c % 64) ++ rest) =
            Option.some (128 + c % 64, rest) :=
          parseEsc_escapeByte _ rest (by omega)
        have p3 : parseEsc (escapeByte (128 + c / 64 % 64) ++
            (escapeByte (128 + c % 64) ++ rest)) =
            Option.some (128 + c / 64 % 64, escapeByte (128 + c % 64) ++ rest) :=
          parseEsc_escapeByte _ _ (by omega)
        have p2 : parseEsc (escapeByte (128 + c / 4096 % 64) ++
            (escapeByte (128 + c / 64 % 64) ++
              (escapeByte (128 + c % 64) ++ rest))) =
            Option.some (128 + c / 4096 % 64,
              escapeByte (128 + c / 64 % 64) ++
                (escapeByte (128 + c % 64) ++ rest)) :=
          parseEsc_escapeByte _ _ (by omega)
        have p1 : parseEsc (escapeByte (240 + c / 262144) ++
            (escapeByte (128 + c / 4096 % 64) ++
              (escapeByte (128 + c / 64 % 64) ++
                (escapeByte (128 + c % 64) ++ rest)))) =
            Option.some (240 + c / 262144,
              escapeByte (128 + c / 4096 % 64) ++
                (escapeByte (128 + c / 64 % 64) ++
                  (escapeByte (128 + c % 64) ++ rest))) :=
          parseEsc_escapeByte _ _ (by omega)
        have q1 : (240 + c / 262144 < 128) = False := eq_false (by omega)
        have q2 : (194 ≤ 240 + c / 262144 ∧ 240 + c / 262144 ≤ 223) = False :=
          eq_false (by omega)
        have q3 : (224 ≤ 240 + c / 262144 ∧ 240 + c / 262144 ≤ 239) = False :=
          eq_false (by omega)
        have q4 : (240 ≤ 240 + c / 262144 ∧ 240 + c / 262144 ≤ 244) = True :=
          eq_true (by omega)
        have q5 : (((240 + c / 262144 = 240 ∧ 144 ≤ 128 + c / 4096 % 64 ∧
              128 + c / 4096 % 64 ≤ 191) ∨
            (241 ≤ 240 + c / 262144 ∧ 240 + c / 262144 ≤ 243 ∧
              128 ≤ 128 + c / 4096 % 64 ∧ 128 + c / 4096 % 64 ≤ 191) ∨
            (240 + c / 262144 = 244 ∧ 128 ≤ 128 + c / 4096 % 64 ∧
              128 + c / 4096 % 64 ≤ 143)) ∧
           (128 ≤ 128 + c / 64 % 64 ∧ 128 + c / 64 % 64 ≤ 191) ∧
           (128 ≤ 128 + c % 64 ∧ 128 + c % 64 ≤ 191)) = True :=
          eq_true (by omega)
        have hv : (240 + c / 262144 - 240) * 262144 +
            (128 + c / 4096 % 64 - 128) * 4096 +
            (128 + c / 64 % 64 - 128) * 64 + (128 + c % 64 - 128) = c := by
          omega
        simp only [utf8Bytes, if_neg hr1, if_neg hr2, if_neg hr3, escBytes,
          List.append_nil, List.append_assoc, decodeUtf8Escape, p1, p2, p3, p4,
          q1, q2, q3, q4, q5, if_true, if_false, hv]

theorem decSeg_encChar (c : Nat) (h1 : c < 1114112)
    (h2 : ¬(55296 ≤ c ∧ c ≤ 57343)) (rest : List Nat) :
    decSeg (encChar c ++ rest) = (decSeg rest).map (fun t => c :: t) := by
  by_cases hu : isUnreservedURI c
  · have hc : c ≠ 37 := by
      simp only [isUnreservedURI, Bool.or_eq_true, Bool.and_eq_true,
        decide_eq_true_eq, beq_iff_eq] at hu
      omega
    simp only [encChar, if_pos hu, List.cons_append, List.nil_append]
    exact decSeg_cons_notpct c hc rest
  · simp only [encChar, if_neg hu]
    obtain ⟨b, bs, hbs⟩ : ∃ b bs, utf8Bytes c = b :: bs := by
      simp only [utf8Bytes]
      split_ifs <;> exact ⟨_, _, rfl⟩
    have htl : escBytes (utf8Bytes c) ++ rest =
        37 :: (hexDigitChar (b / 16) :: hexDigitChar (b % 16) ::
          (escBytes bs ++ rest)) := by
      rw [hbs]
      simp [escBytes, escapeByte, List.cons_append]
    rw [htl, decSeg_pct, ← htl, decodeUtf8Escape_escBytes c h1 h2 rest]

theorem decSeg_encSeg (s : List Nat) (hv : ∀ c ∈ s, ValidScalar c) :
    decSeg (encSeg s) = Option.some s := by
  induction s with
  | nil => rfl
  | cons c cs ih =>
      have hc := hv c (List.mem_cons_self _ _)
      simp only [encSeg]
      rw [decSeg_encChar c hc.1 hc.2,
        ih (fun x hx => hv x (List.mem_cons_of_mem _ hx))]
      rfl

theorem decSegs_map_encSeg (L : List (List Nat))
    (h : ∀ s ∈ L, ∀ c ∈ s, ValidScalar c) :
    decSegs (L.map encSeg) = Option.some L := by
  induction L with
  | nil => rfl
  | cons s ss ih =>
      simp only [List.map_cons, decSegs]
      rw [decSeg_encSeg s (h s (List.mem_cons_self _ _)),
        ih (fun x hx => h x (List.mem_cons_of_mem _ hx))]

/-- Claim C10: for every valid Unicode string (no lone surrogates), the
per-segment URI encoding used for all client paths round-trips:
decodePathURI (encodePathURI p) = p, and consequently
ensurePathURI (encodePathURI p) = encodePathURI p. -/
theorem claim10_path_uri_roundtrip (p : List Nat)
    (hp : ∀ c ∈ p, ValidScalar c) :
    decodePathURI (encodePathURI p) = Option.some p ∧
    ensurePathURI (encodePathURI p) = Option.some (encodePathURI p) := by
  have hsegs : ∀ s ∈ (splitOnSlash p).map encSeg, 47 ∉ s := by
    intro s hs
    rcases List.mem_map.mp hs with ⟨t, ht, rfl⟩
    exact encSeg_no_slash t
  have hne : (splitOnSlash p).map encSeg ≠ [] := by
    intro hmap
    exact splitOnSlash_ne_nil p (List.map_eq_nil_iff.mp hmap)
  have hsplit : splitOnSlash (encodePathURI p) = (splitOnSlash p).map encSeg := by
    rw [encodePathURI]
    exact splitOnSlash_joinSlash _ hsegs hne
  have hdec : decSegs ((splitOnSlash p).map encSeg) =
      Option.some (splitOnSlash p) :=
    decSegs_map_encSeg _ (fun s hs c hc =>
      hp c (mem_of_mem_splitOnSlash p s hs c hc))
  have h1 : decodePathURI (encodePathURI p) = Option.some p := by
    rw [decodePathURI, hsplit, hdec, Option.map_some', joinSlash_splitOnSlash]
  refine ⟨h1, ?_⟩
  rw [ensurePathURI, h1, Option.map_some']

/-- Witness for claim C10: the concrete path with a slash and a space
round-trips through the codec. -/
theorem claim10_path_uri_roundtrip_witness :
    decodePathURI (encodePathURI [97, 47, 32]) = Option.some [97, 47, 32] :=
  (claim10_path_uri_roundtrip [97, 47, 32] (by decide)).1

end Lfss
